import Mathlib

/-!
Shallow embedding of the SNR spectrum transform `snr_spectrum` from
`tutorials/time-freq/ssvep.py`.

The numpy float array is modelled as a list of IEEE-style values `Val`:
a finite rational, `+inf`, `-inf`, or `nan` (signed zeros are collapsed
to the single rational zero; all inputs in the claims are exact dyadic /
small rationals, so rational arithmetic mirrors the float computation
exactly on them).  Fallible numpy operations (shape-mismatch errors,
empty-input errors) are modelled with `Option`.
-/

/-- IEEE-style scalar: finite rational, positive/negative infinity, or NaN. -/
inductive Val where
  | fin (q : ℚ)
  | pinf
  | ninf
  | nan
deriving DecidableEq

namespace Val

/-- IEEE addition (no signed zero: `ℚ` has a single zero). -/
def add : Val → Val → Val
  | fin a, fin b => fin (a + b)
  | fin _, pinf => pinf
  | fin _, ninf => ninf
  | pinf, fin _ => pinf
  | pinf, pinf  => pinf
  | pinf, ninf  => nan
  | ninf, fin _ => ninf
  | ninf, pinf  => nan
  | ninf, ninf  => ninf
  | nan, _ => nan
  | _, nan => nan

/-- IEEE multiplication; `0 * ±inf = nan`. -/
def mul : Val → Val → Val
  | fin a, fin b => fin (a * b)
  | fin a, pinf => if 0 < a then pinf else if a < 0 then ninf else nan
  | fin a, ninf => if 0 < a then ninf else if a < 0 then pinf else nan
  | pinf, fin b => if 0 < b then pinf else if b < 0 then ninf else nan
  | ninf, fin b => if 0 < b then ninf else if b < 0 then pinf else nan
  | pinf, pinf => pinf
  | pinf, ninf => ninf
  | ninf, pinf => ninf
  | ninf, ninf => pinf
  | nan, _ => nan
  | _, nan => nan

/-- IEEE division; the single zero behaves as `+0`, so `a / 0 = ±inf`
for `a ≠ 0` (matching the sign of `a`) and `0 / 0 = nan`. -/
def div : Val → Val → Val
  | fin a, fin b =>
      if b = 0 then (if 0 < a then pinf else if a < 0 then ninf else nan)
      else fin (a / b)
  | fin _, pinf => fin 0
  | fin _, ninf => fin 0
  | pinf, fin b => if 0 ≤ b then pinf else ninf
  | ninf, fin b => if 0 ≤ b then ninf else pinf
  | pinf, pinf => nan
  | pinf, ninf => nan
  | ninf, pinf => nan
  | ninf, ninf => nan
  | nan, _ => nan
  | _, nan => nan

end Val

/-- Dot product of two `Val` lists (zipping stops at the shorter list),
summed with `Val.add` from an exact zero, as the inner sum of a
discrete convolution. -/
def dotVal : List Val → List Val → Val
  | a :: as, b :: bs => Val.add (Val.mul a b) (dotVal as bs)
  | _, _ => Val.fin 0

/-- All dot products of `kRev` against successive suffixes of `l` that are
long enough to fully overlap: the "valid"-mode sliding window. -/
def slideDots (kRev : List Val) : List Val → List Val
  | [] => []
  | a :: t =>
      if kRev.length ≤ (a :: t).length then
        dotVal (a :: t) kRev :: slideDots kRev t
      else []

/-- `np.convolve(a, v, mode='valid')`: numpy swaps the arguments when `v`
is longer than `a`; entry `k` is `Σ_t long[k+t] * short[K-1-t]`, i.e. the
dot product of the `k`-th suffix of the longer array with the reversed
shorter array. -/
def np_convolve_valid (a v : List Val) : List Val :=
  if v.length ≤ a.length then slideDots v.reverse a else slideDots a.reverse v

/-- The unnormalized kernel
`np.concatenate((np.ones(n), np.zeros(2*s+1), np.ones(n)))`. -/
def averaging_kernel_raw (n s : ℕ) : List ℚ :=
  List.replicate n 1 ++ List.replicate (2 * s + 1) 0 ++ List.replicate n 1

/-- The kernel after `averaging_kernel /= averaging_kernel.sum()`;
each entry is divided (IEEE division) by the float sum, so a zero sum
(possible only when `n = 0`) turns every entry into `nan`. -/
def averaging_kernel (n s : ℕ) : List Val :=
  (averaging_kernel_raw n s).map
    (fun x => Val.div (Val.fin x) (Val.fin (averaging_kernel_raw n s).sum))

/-- `edge_width = noise_n_neighborfreqs + noise_skip_neighborfreqs`. -/
def edge_width (n s : ℕ) : ℕ := n + s

/-- `np.pad(l, (e, e), constant_values=np.nan)` on the frequency axis. -/
def pad_nan (e : ℕ) (l : List Val) : List Val :=
  List.replicate e Val.nan ++ l ++ List.replicate e Val.nan

/-- Elementwise division `a / b` of two 1-D numpy arrays, with numpy
broadcasting: equal lengths divide pointwise, a length-1 operand is
broadcast against the other, and any other length mismatch raises
(`none`). -/
def broadcast_div (a b : List Val) : Option (List Val) :=
  if a.length = b.length then some (List.zipWith Val.div a b)
  else
    match a, b with
    | [x], b' => some (b'.map (fun y => Val.div x y))
    | a', [y] => some (a'.map (fun x => Val.div x y))
    | _, _ => none

/-- `mean_noise` for a single frequency-axis slice:
`np.convolve(psd_, averaging_kernel, mode='valid')`. -/
def mean_noise (psd : List ℚ) (n s : ℕ) : List Val :=
  np_convolve_valid (psd.map Val.fin) (averaging_kernel n s)

/-- The SNR spectrum transform on one frequency-axis slice: build the
kernel, convolve in valid mode, pad `edge_width` NaNs on each side, and
divide; an empty slice makes `np.convolve` raise (`none`). -/
def snr_spectrum (psd : List ℚ) (n s : ℕ) : Option (List Val) :=
  if psd.isEmpty then none
  else broadcast_div (psd.map Val.fin)
        (pad_nan (edge_width n s) (mean_noise psd n s))

/-- The SNR spectrum transform on a 2-D (batch × frequency) array:
`np.apply_along_axis` maps the convolution over the batch axis (raising
if the batch is empty or a slice is empty), the padding touches only the
last axis, and the final division is elementwise over equal batch axes. -/
def snr_spectrum_2d (psd : List (List ℚ)) (n s : ℕ) : Option (List (List Val)) :=
  if psd.isEmpty then none
  else if psd.any List.isEmpty then none
  else
    (List.zip (psd.map (List.map Val.fin))
        (psd.map (fun r => pad_nan (edge_width n s) (mean_noise r n s)))).mapM
      (fun p => broadcast_div p.1 p.2)

/-! ### Rational-level descriptions of the pipeline (proof helpers) -/

/-- Rational dot product, mirroring `dotVal` on finite values. -/
def dotQ : List ℚ → List ℚ → ℚ
  | a :: as, b :: bs => a * b + dotQ as bs
  | _, _ => 0

/-- Rational sliding dot products, mirroring `slideDots`. -/
def slideDotsQ (kRev : List ℚ) : List ℚ → List ℚ
  | [] => []
  | a :: t =>
      if kRev.length ≤ (a :: t).length then
        dotQ (a :: t) kRev :: slideDotsQ kRev t
      else []

/-- The normalized averaging kernel as rationals (its entries agree with
`averaging_kernel` whenever `1 ≤ n`). -/
def kernelQ (n s : ℕ) : List ℚ :=
  (averaging_kernel_raw n s).map (fun x => x / (2 * n))

/-- The rational value of `mean_noise` when `1 ≤ n` and the kernel fits. -/
def mean_noiseQ (psd : List ℚ) (n s : ℕ) : List ℚ :=
  slideDotsQ (kernelQ n s).reverse psd

/-- Sum of a list of `Val`s with `Val.add`, starting from an exact zero. -/
def valSum (l : List Val) : Val := l.foldr Val.add (Val.fin 0)

/-- Scaling helper used to state scale invariance: multiplies finite
values by `c` and fixes the non-finite values. -/
def scaleVal (c : ℚ) : Val → Val
  | .fin q => .fin (c * q)
  | v => v

lemma length_averaging_kernel_raw (n s : ℕ) :
    (averaging_kernel_raw n s).length = 2 * n + 2 * s + 1 := by
  simp [averaging_kernel_raw]; omega

lemma sum_averaging_kernel_raw (n s : ℕ) :
    (averaging_kernel_raw n s).sum = ((2 * n : ℕ) : ℚ) := by
  simp [averaging_kernel_raw, List.sum_append, List.sum_replicate]
  ring

lemma length_kernelQ (n s : ℕ) : (kernelQ n s).length = 2 * n + 2 * s + 1 := by
  simp [kernelQ, length_averaging_kernel_raw]

lemma length_averaging_kernel (n s : ℕ) :
    (averaging_kernel n s).length = 2 * n + 2 * s + 1 := by
  simp [averaging_kernel, length_averaging_kernel_raw]

lemma averaging_kernel_eq (n s : ℕ) (hn : 1 ≤ n) :
    averaging_kernel n s = (kernelQ n s).map Val.fin := by
  unfold averaging_kernel kernelQ
  rw [List.map_map, sum_averaging_kernel_raw]
  apply List.map_congr_left
  intro a _
  have h2n : ((2 * n : ℕ) : ℚ) ≠ 0 := by
    have hn0 : n ≠ 0 := by omega
    exact_mod_cast Nat.mul_ne_zero (by norm_num) hn0
  show Val.div (Val.fin a) (Val.fin ((2 * n : ℕ) : ℚ)) = Val.fin (a / (2 * (n : ℚ)))
  simp only [Val.div, if_neg h2n]
  congr 1
  push_cast
  ring

lemma kernelQ_explicit (n s : ℕ) :
    kernelQ n s =
      List.replicate n (1 / (2 * (n : ℚ))) ++ List.replicate (2 * s + 1) (0 : ℚ) ++
        List.replicate n (1 / (2 * (n : ℚ))) := by
  simp [kernelQ, averaging_kernel_raw, List.map_replicate]

lemma kernelQ_sum (n s : ℕ) (hn : 1 ≤ n) : (kernelQ n s).sum = 1 := by
  have hq : (n : ℚ) ≠ 0 := by
    have : (1 : ℚ) ≤ (n : ℚ) := by exact_mod_cast hn
    intro h; rw [h] at this; norm_num at this
  rw [kernelQ_explicit]
  simp [List.sum_append, List.sum_replicate, nsmul_eq_mul]
  field_simp
  ring

lemma valSum_map_fin (l : List ℚ) : valSum (l.map Val.fin) = Val.fin l.sum := by
  induction l with
  | nil => simp [valSum]
  | cons x t ih => simp [valSum, Val.add] at ih ⊢; simp [ih, Val.add]

lemma dotVal_map_fin (a b : List ℚ) :
    dotVal (a.map Val.fin) (b.map Val.fin) = Val.fin (dotQ a b) := by
  induction a generalizing b with
  | nil => cases b <;> simp [dotVal, dotQ]
  | cons x xs ih =>
      cases b with
      | nil => simp [dotVal, dotQ]
      | cons y ys => simp [dotVal, dotQ, ih, Val.mul, Val.add]

lemma slideDots_map_fin (k l : List ℚ) :
    slideDots (k.map Val.fin) (l.map Val.fin) = (slideDotsQ k l).map Val.fin := by
  induction l with
  | nil => simp [slideDots, slideDotsQ]
  | cons a t ih =>
      by_cases h : k.length ≤ t.length + 1
      · simp only [List.map_cons, slideDots, slideDotsQ, List.length_map,
          List.length_cons, if_pos h]
        rw [← List.map_cons, dotVal_map_fin, ← List.map_cons]
        simp [ih]
      · simp only [List.map_cons, slideDots, slideDotsQ, List.length_map,
          List.length_cons, if_neg h]
        simp

lemma slideDotsQ_eq_nil (k l : List ℚ) (h : l.length < k.length) :
    slideDotsQ k l = [] := by
  cases l with
  | nil => rfl
  | cons a t =>
      rw [slideDotsQ, if_neg]
      simpa using h

lemma slideDotsQ_length (k : List ℚ) (hk : 1 ≤ k.length) :
    ∀ l : List ℚ, k.length ≤ l.length →
      (slideDotsQ k l).length = l.length - k.length + 1 := by
  intro l
  induction l with
  | nil => intro h; simp only [List.length_nil, Nat.le_zero] at h; omega
  | cons a t ih =>
      intro h
      rw [slideDotsQ, if_pos (by simpa using h)]
      by_cases h' : k.length ≤ t.length
      · have := ih h'
        simp [this]
        omega
      · have hnil : slideDotsQ k t = [] := slideDotsQ_eq_nil k t (by omega)
        simp [hnil]
        omega

lemma slideDots_eq_nil (k l : List Val) (h : l.length < k.length) :
    slideDots k l = [] := by
  cases l with
  | nil => rfl
  | cons a t =>
      rw [slideDots, if_neg]
      simpa using h

lemma slideDots_length (k : List Val) (hk : 1 ≤ k.length) :
    ∀ l : List Val, k.length ≤ l.length →
      (slideDots k l).length = l.length - k.length + 1 := by
  intro l
  induction l with
  | nil => intro h; simp only [List.length_nil, Nat.le_zero] at h; omega
  | cons a t ih =>
      intro h
      rw [slideDots, if_pos (by simpa using h)]
      by_cases h' : k.length ≤ t.length
      · have := ih h'
        simp [this]
        omega
      · have hnil : slideDots k t = [] := slideDots_eq_nil k t (by omega)
        simp [hnil]
        omega

lemma slideDotsQ_getElem? (k : List ℚ) (hk : 1 ≤ k.length) :
    ∀ (l : List ℚ) (i : ℕ), i + k.length ≤ l.length →
      (slideDotsQ k l)[i]? = some (dotQ (l.drop i) k) := by
  intro l
  induction l with
  | nil => intro i h; simp only [List.length_nil, Nat.le_zero] at h; omega
  | cons a t ih =>
      intro i h
      rw [slideDotsQ, if_pos (by simp at h ⊢; omega)]
      cases i with
      | zero => simp
      | succ j =>
          simp only [List.getElem?_cons_succ, List.drop_succ_cons]
          exact ih j (by simp at h; omega)

lemma length_mean_noiseQ (psd : List ℚ) (n s : ℕ)
    (hF : 2 * n + 2 * s + 1 ≤ psd.length) :
    (mean_noiseQ psd n s).length = psd.length - (2 * n + 2 * s + 1) + 1 := by
  unfold mean_noiseQ
  rw [slideDotsQ_length]
  · rw [List.length_reverse, length_kernelQ]
  · rw [List.length_reverse, length_kernelQ]; omega
  · rw [List.length_reverse, length_kernelQ]; omega

lemma mean_noise_eq (psd : List ℚ) (n s : ℕ) (hn : 1 ≤ n)
    (hF : 2 * n + 2 * s + 1 ≤ psd.length) :
    mean_noise psd n s = (mean_noiseQ psd n s).map Val.fin := by
  unfold mean_noise np_convolve_valid mean_noiseQ
  rw [averaging_kernel_eq n s hn, if_pos]
  · rw [← List.map_reverse, slideDots_map_fin]
  · rw [List.length_map, List.length_map, length_kernelQ]
    exact hF

lemma pad_nan_getElem?_left (e : ℕ) (l : List Val) (i : ℕ) (h : i < e) :
    (pad_nan e l)[i]? = some Val.nan := by
  unfold pad_nan
  rw [List.getElem?_append, if_pos (by simp; omega)]
  rw [List.getElem?_append, if_pos (by simpa using h)]
  rw [List.getElem?_replicate, if_pos h]

lemma pad_nan_getElem?_mid (e : ℕ) (l : List Val) (i : ℕ) (h1 : e ≤ i)
    (h2 : i - e < l.length) :
    (pad_nan e l)[i]? = l[i - e]? := by
  unfold pad_nan
  rw [List.getElem?_append, if_pos (by simp; omega)]
  rw [List.getElem?_append_right (by simpa using h1), List.length_replicate]

lemma pad_nan_getElem?_right (e : ℕ) (l : List Val) (i : ℕ)
    (h1 : e + l.length ≤ i) (h2 : i < e + l.length + e) :
    (pad_nan e l)[i]? = some Val.nan := by
  unfold pad_nan
  rw [List.getElem?_append_right (by simp; omega)]
  rw [List.getElem?_replicate, if_pos (by simp; omega)]

lemma zipWith_getElem?_of_lt {α β γ : Type} (f : α → β → γ) (a : List α)
    (b : List β) (i : ℕ) (da : α) (db : β) (h1 : i < a.length) (h2 : i < b.length) :
    (List.zipWith f a b)[i]? = some (f (a.getD i da) (b.getD i db)) := by
  have hlen : i < (List.zipWith f a b).length := by
    rw [List.length_zipWith]; omega
  rw [List.getElem?_eq_getElem hlen, List.getElem_zipWith]
  rw [List.getD_eq_getElem?_getD, List.getD_eq_getElem?_getD,
    List.getElem?_eq_getElem h1, List.getElem?_eq_getElem h2]
  rfl

/-- Canonical description of a successful run: whenever `1 ≤ n` and the
kernel fits (`2*(n+s)+1 ≤ F`), the transform returns an array of length
`F` whose entry `i` is NaN on both `n+s`-wide edges and otherwise is the
bin power divided by the rational neighbor mean. -/
lemma snr_spectrum_some (psd : List ℚ) (n s : ℕ) (hn : 1 ≤ n)
    (hF : 2 * (n + s) + 1 ≤ psd.length) :
    ∃ out, snr_spectrum psd n s = some out ∧ out.length = psd.length ∧
      ∀ i, i < psd.length →
        out[i]? = some (if i < n + s ∨ psd.length ≤ i + (n + s) then Val.nan
          else Val.div (Val.fin (psd.getD i 0))
                 (Val.fin ((mean_noiseQ psd n s).getD (i - (n + s)) 0))) := by
  have hF' : 2 * n + 2 * s + 1 ≤ psd.length := by omega
  have hlenM : (mean_noiseQ psd n s).length = psd.length - (2 * n + 2 * s + 1) + 1 :=
    length_mean_noiseQ psd n s hF'
  set pd := pad_nan (edge_width n s) ((mean_noiseQ psd n s).map Val.fin) with hpd
  have hlenPad : pd.length = psd.length := by
    rw [hpd]
    simp [pad_nan, edge_width, List.length_map, hlenM]
    omega
  have hne : psd.isEmpty = false := by
    rw [List.isEmpty_eq_false]
    intro h
    rw [h] at hF'
    simp at hF'
  set out := List.zipWith Val.div (psd.map Val.fin) pd with hout
  have hsnr : snr_spectrum psd n s = some out := by
    unfold snr_spectrum
    rw [mean_noise_eq psd n s hn hF']
    simp only [hne, Bool.false_eq_true, if_false]
    unfold broadcast_div
    rw [if_pos (by rw [List.length_map, hlenPad])]
  refine ⟨out, hsnr, ?_, ?_⟩
  · rw [hout, List.length_zipWith, List.length_map, hlenPad, min_self]
  · intro i hi
    have hpadlen : i < pd.length := by rw [hlenPad]; exact hi
    rw [hout, zipWith_getElem?_of_lt Val.div _ _ i Val.nan Val.nan
      (by simpa using hi) hpadlen]
    have hmapgetD : (psd.map Val.fin).getD i Val.nan = Val.fin (psd.getD i 0) := by
      rw [List.getD_eq_getElem?_getD, List.getD_eq_getElem?_getD, List.getElem?_map,
        List.getElem?_eq_getElem hi]
      rfl
    rw [hmapgetD]
    by_cases hlo : i < n + s
    · rw [if_pos (Or.inl hlo)]
      have hv : pd.getD i Val.nan = Val.nan := by
        rw [List.getD_eq_getElem?_getD, hpd,
          pad_nan_getElem?_left _ _ _ (by simpa [edge_width] using hlo)]
        rfl
      rw [hv]
      simp [Val.div]
    · by_cases hhi : psd.length ≤ i + (n + s)
      · rw [if_pos (Or.inr hhi)]
        have hv : pd.getD i Val.nan = Val.nan := by
          rw [List.getD_eq_getElem?_getD, hpd, pad_nan_getElem?_right _ _ _
            (by simp [edge_width, List.length_map, hlenM]; omega)
            (by simp [edge_width, List.length_map, hlenM]; omega)]
          rfl
        rw [hv]
        simp [Val.div]
      · rw [if_neg (by tauto)]
        have hintlt : i - (n + s) < (mean_noiseQ psd n s).length := by
          rw [hlenM]; omega
        have hv : pd.getD i Val.nan =
            Val.fin ((mean_noiseQ psd n s).getD (i - (n + s)) 0) := by
          rw [List.getD_eq_getElem?_getD, hpd, pad_nan_getElem?_mid _ _ _
            (by simpa [edge_width] using not_lt.mp hlo)
            (by simpa [edge_width, List.length_map] using hintlt)]
          simp only [edge_width]
          rw [List.getElem?_map, List.getElem?_eq_getElem hintlt,
            List.getD_eq_getElem?_getD, List.getElem?_eq_getElem hintlt]
          rfl
        rw [hv]

/-! ### The degenerate kernel (`n = 0`) and shape-mismatch failures -/

lemma averaging_kernel_zero (s : ℕ) :
    averaging_kernel 0 s = List.replicate (2 * s + 1) Val.nan := by
  simp [averaging_kernel, averaging_kernel_raw, List.sum_replicate,
    List.map_replicate, Val.div]

lemma Val.mul_nan (a : Val) : Val.mul a Val.nan = Val.nan := by cases a <;> rfl

lemma Val.add_nan (b : Val) : Val.add Val.nan b = Val.nan := by cases b <;> rfl

lemma dotVal_nan_left (a : Val) (t k : List Val) :
    dotVal (a :: t) (Val.nan :: k) = Val.nan := by
  simp [dotVal, Val.mul_nan, Val.add_nan]

lemma slideDots_replicate_nan (m : ℕ) (hm : 1 ≤ m) :
    ∀ l : List Val, m ≤ l.length →
      slideDots (List.replicate m Val.nan) l =
        List.replicate (l.length - m + 1) Val.nan := by
  intro l
  induction l with
  | nil => intro h; simp only [List.length_nil, Nat.le_zero] at h; omega
  | cons a t ih =>
      intro h
      rw [slideDots, if_pos (by simpa [List.length_replicate] using h)]
      have hdot : dotVal (a :: t) (List.replicate m Val.nan) = Val.nan := by
        cases m with
        | zero => omega
        | succ m' => rw [List.replicate_succ]; exact dotVal_nan_left _ _ _
      by_cases h' : m ≤ t.length
      · have hstep : (a :: t).length - m + 1 = t.length - m + 1 + 1 := by
          simp; omega
        rw [hdot, ih h', hstep]
        simp [List.replicate_succ]
      · have hnil : slideDots (List.replicate m Val.nan) t = [] :=
          slideDots_eq_nil _ _ (by simp; omega)
        have hone : (a :: t).length - m + 1 = 1 := by simp; omega
        rw [hdot, hnil, hone]
        rfl

lemma zipWith_div_fin_replicate_nan (l : List ℚ) :
    List.zipWith Val.div (l.map Val.fin) (List.replicate l.length Val.nan) =
      List.replicate l.length Val.nan := by
  induction l with
  | nil => rfl
  | cons a t ih => simp [List.replicate_succ, Val.div, ih]

lemma broadcast_div_none (a b : List Val) (h : a.length ≠ b.length)
    (ha : a.length ≠ 1) (hb : b.length ≠ 1) : broadcast_div a b = none := by
  unfold broadcast_div
  rw [if_neg h]
  rcases a with _ | ⟨x, _ | ⟨x', xs⟩⟩ <;> rcases b with _ | ⟨y, _ | ⟨y', ys⟩⟩ <;>
    simp_all

/-! ### Constant (uniform-power) inputs -/

lemma dotQ_replicate (v : ℚ) (k : List ℚ) :
    ∀ m : ℕ, k.length ≤ m → dotQ (List.replicate m v) k = v * k.sum := by
  induction k with
  | nil => intro m _; cases m <;> simp [dotQ]
  | cons x xs ih =>
      intro m hm
      cases m with
      | zero => simp at hm
      | succ m' =>
          rw [List.replicate_succ]
          simp only [dotQ, List.sum_cons]
          rw [ih m' (by simpa using hm)]
          ring

lemma mean_noiseQ_replicate (F n s : ℕ) (v : ℚ) (hn : 1 ≤ n) (j : ℕ) :
    j + (2 * n + 2 * s + 1) ≤ F →
    (mean_noiseQ (List.replicate F v) n s).getD j 0 = v := by
  intro hj
  unfold mean_noiseQ
  have hk : 1 ≤ (kernelQ n s).reverse.length := by
    rw [List.length_reverse, length_kernelQ]; omega
  rw [List.getD_eq_getElem?_getD,
    slideDotsQ_getElem? _ hk _ j
      (by rw [List.length_reverse, length_kernelQ, List.length_replicate]; omega)]
  rw [List.drop_replicate,
    dotQ_replicate _ _ _ (by rw [List.length_reverse, length_kernelQ]; omega)]
  rw [List.sum_reverse, kernelQ_sum n s hn]
  simp

/-! ### Scale invariance helpers -/

lemma mul_neg_iff_of_pos (c b : ℚ) (hc : 0 < c) : c * b < 0 ↔ b < 0 := by
  constructor <;> intro h
  · by_contra hb
    push_neg at hb
    nlinarith
  · nlinarith

lemma div_fin_scale {c : ℚ} (hc : 0 < c) (p : ℚ) (x : Val) :
    Val.div (Val.fin (c * p)) (scaleVal c x) = Val.div (Val.fin p) x := by
  cases x with
  | fin m =>
      by_cases hm : m = 0
      · subst hm
        rw [scaleVal, mul_zero]
        simp [Val.div, mul_pos_iff_of_pos_left hc, mul_neg_iff_of_pos c p hc]
      · have hcm : c * m ≠ 0 := mul_ne_zero (ne_of_gt hc) hm
        rw [scaleVal]
        simp [Val.div, hcm, hm]
        rw [mul_div_mul_left _ _ (ne_of_gt hc)]
  | pinf => rfl
  | ninf => rfl
  | nan => rfl

lemma pad_nan_scale (c : ℚ) (e : ℕ) (l : List Val) :
    pad_nan e (l.map (scaleVal c)) = (pad_nan e l).map (scaleVal c) := by
  simp [pad_nan, List.map_append, List.map_replicate, scaleVal]

lemma dotQ_scale_left (c : ℚ) (a b : List ℚ) :
    dotQ (a.map (fun x => c * x)) b = c * dotQ a b := by
  induction a generalizing b with
  | nil => cases b <;> simp [dotQ]
  | cons x xs ih =>
      cases b with
      | nil => simp [dotQ]
      | cons y ys => simp [dotQ, ih]; ring

lemma dotQ_scale_right (c : ℚ) (a b : List ℚ) :
    dotQ a (b.map (fun x => c * x)) = c * dotQ a b := by
  induction a generalizing b with
  | nil => cases b <;> simp [dotQ]
  | cons x xs ih =>
      cases b with
      | nil => simp [dotQ]
      | cons y ys => simp [dotQ, ih]; ring

lemma slideDotsQ_scale_list (c : ℚ) (k l : List ℚ) :
    slideDotsQ k (l.map (fun x => c * x)) = (slideDotsQ k l).map (fun x => c * x) := by
  induction l with
  | nil => rfl
  | cons a t ih =>
      by_cases h : k.length ≤ t.length + 1
      · simp only [List.map_cons, slideDotsQ, List.length_map, List.length_cons,
          if_pos h]
        rw [← List.map_cons, dotQ_scale_left]
        simp [ih]
      · simp only [List.map_cons, slideDotsQ, List.length_map, List.length_cons,
          if_neg h]
        simp

lemma slideDotsQ_scale_kRev (c : ℚ) (k l : List ℚ) :
    slideDotsQ (k.map (fun x => c * x)) l = (slideDotsQ k l).map (fun x => c * x) := by
  induction l with
  | nil => rfl
  | cons a t ih =>
      by_cases h : k.length ≤ t.length + 1
      · simp only [slideDotsQ, List.length_map, List.length_cons, if_pos h]
        rw [dotQ_scale_right]
        simp [ih]
      · simp only [slideDotsQ, List.length_map, List.length_cons, if_neg h]
        simp

lemma mean_noise_scale (c : ℚ) (psd : List ℚ) (n s : ℕ) (hn : 1 ≤ n) :
    mean_noise (psd.map (fun x => c * x)) n s =
      (mean_noise psd n s).map (scaleVal c) := by
  unfold mean_noise np_convolve_valid
  rw [averaging_kernel_eq n s hn]
  simp only [List.length_map]
  by_cases h : (kernelQ n s).length ≤ psd.length
  · rw [if_pos h, if_pos h, ← List.map_reverse, slideDots_map_fin, slideDots_map_fin,
      slideDotsQ_scale_list]
    simp [List.map_map, Function.comp, scaleVal]
  · rw [if_neg h, if_neg h, ← List.map_reverse, ← List.map_reverse,
      slideDots_map_fin, ← List.map_reverse, slideDots_map_fin,
      slideDotsQ_scale_kRev]
    simp [List.map_map, Function.comp, scaleVal]

lemma zipWith_div_scale {c : ℚ} (hc : 0 < c) :
    ∀ (a : List ℚ) (b : List Val),
      List.zipWith Val.div ((a.map (fun x => c * x)).map Val.fin)
          (b.map (scaleVal c)) =
        List.zipWith Val.div (a.map Val.fin) b := by
  intro a
  induction a with
  | nil => intro b; simp
  | cons p t ih =>
      intro b
      cases b with
      | nil => simp
      | cons x bs =>
          simp only [List.map_cons, List.zipWith_cons_cons]
          rw [div_fin_scale hc, ih bs]

lemma broadcast_div_scale {c : ℚ} (hc : 0 < c) (a : List ℚ) (b : List Val) :
    broadcast_div ((a.map (fun x => c * x)).map Val.fin) (b.map (scaleVal c)) =
      broadcast_div (a.map Val.fin) b := by
  unfold broadcast_div
  simp only [List.length_map]
  by_cases h : a.length = b.length
  · rw [if_pos h, if_pos h, zipWith_div_scale hc]
  · rw [if_neg h, if_neg h]
    rcases a with _ | ⟨p, _ | ⟨p', ps⟩⟩ <;> rcases b with _ | ⟨y, _ | ⟨y', ys⟩⟩ <;>
      simp_all [div_fin_scale hc, List.map_map, Function.comp]

/-! ### Batched (2-D) runs -/

lemma mapM_some_length {α β : Type} (F : α → Option β) :
    ∀ (l : List α) (out : List β), l.mapM F = some out → out.length = l.length := by
  intro l
  induction l with
  | nil =>
      intro out h
      simp only [List.mapM_nil, Option.pure_def, Option.some.injEq] at h
      rw [← h]
      rfl
  | cons a t ih =>
      intro out h
      simp only [List.mapM_cons, Option.pure_def, Option.bind_eq_bind,
        Option.bind_eq_some, Option.some.injEq] at h
      obtain ⟨b, hb, bs, hbs, hout⟩ := h
      rw [← hout]
      simp [ih bs hbs]

lemma mapM_some_getElem? {α β : Type} (F : α → Option β) (d : α) :
    ∀ (l : List α) (out : List β), l.mapM F = some out →
      ∀ i, i < l.length → F (l.getD i d) = out[i]? := by
  intro l
  induction l with
  | nil => intro out _ i hi; simp at hi
  | cons a t ih =>
      intro out h i hi
      simp only [List.mapM_cons, Option.pure_def, Option.bind_eq_bind,
        Option.bind_eq_some, Option.some.injEq] at h
      obtain ⟨b, hb, bs, hbs, hout⟩ := h
      rw [← hout]
      cases i with
      | zero => simpa using hb
      | succ j =>
          simp only [List.getD_cons_succ, List.getElem?_cons_succ]
          exact ih bs hbs j (by simpa using hi)

lemma mapM_some_of_forall {α β : Type} (F : α → Option β) :
    ∀ l : List α, (∀ a ∈ l, ∃ b, F a = some b) → ∃ out, l.mapM F = some out := by
  intro l
  induction l with
  | nil => exact fun _ => ⟨[], rfl⟩
  | cons a t ih =>
      intro h
      obtain ⟨b, hb⟩ := h a (by simp)
      obtain ⟨bs, hbs⟩ := ih (fun x hx => h x (by simp [hx]))
      exact ⟨b :: bs, by rw [List.mapM_cons, hb, hbs]; rfl⟩

lemma mapM_zip_rows (n s : ℕ) :
    ∀ psd : List (List ℚ), (∀ r ∈ psd, r ≠ []) →
      ((psd.map (List.map Val.fin)).zip
          (psd.map (fun r => pad_nan (edge_width n s) (mean_noise r n s)))).mapM
        (fun p => broadcast_div p.1 p.2) =
      psd.mapM (fun r => snr_spectrum r n s) := by
  intro psd
  induction psd with
  | nil => intro _; rfl
  | cons r t ih =>
      intro h
      simp only [List.map_cons, List.zip_cons_cons, List.mapM_cons]
      rw [ih (fun x hx => h x (by simp [hx]))]
      have hr : snr_spectrum r n s =
          broadcast_div (r.map Val.fin)
            (pad_nan (edge_width n s) (mean_noise r n s)) := by
        unfold snr_spectrum
        rw [if_neg (by simpa [List.isEmpty_iff] using h r (by simp))]
      rw [hr]

lemma snr_spectrum_2d_eq_mapM (psd : List (List ℚ)) (n s : ℕ)
    (h0 : psd ≠ []) (h1 : ∀ r ∈ psd, r ≠ []) :
    snr_spectrum_2d psd n s = psd.mapM (fun r => snr_spectrum r n s) := by
  unfold snr_spectrum_2d
  rw [if_neg (by simpa [List.isEmpty_iff] using h0), if_neg ?hany]
  · exact mapM_zip_rows n s psd h1
  case hany =>
    simp only [List.any_eq_true, not_exists]
    intro x
    rw [not_and]
    intro hx hxe
    exact h1 x hx (by simpa [List.isEmpty_iff] using hxe)

lemma length_pad_nan (e : ℕ) (l : List Val) :
    (pad_nan e l).length = e + l.length + e := by
  simp [pad_nan]
  omega

/-! ### Claims -/

/-- C6: for every `n ≥ 1` and `s ≥ 0`, the averaging kernel has length
`2*n + 2*s + 1`, value `1/(2*n)` at the `n` positions on each side, zero at
the center and the `s` positions adjacent to it on each side, and its
entries sum (under IEEE addition) to exactly `1`. -/
theorem C6_kernel_normalization (n s : ℕ) (hn : 1 ≤ n) :
    (averaging_kernel n s).length = 2 * n + 2 * s + 1 ∧
    averaging_kernel n s =
      List.replicate n (Val.fin (1 / (2 * (n : ℚ)))) ++
        List.replicate (2 * s + 1) (Val.fin 0) ++
        List.replicate n (Val.fin (1 / (2 * (n : ℚ)))) ∧
    valSum (averaging_kernel n s) = Val.fin 1 := by
  have hexp : averaging_kernel n s = (kernelQ n s).map Val.fin :=
    averaging_kernel_eq n s hn
  refine ⟨length_averaging_kernel n s, ?_, ?_⟩
  · rw [hexp, kernelQ_explicit]
    simp [List.map_append, List.map_replicate]
  · rw [hexp, valSum_map_fin, kernelQ_sum n s hn]

/-- C6 witness at `n = 1`, `s = 0`: kernel `[1/2, 0, 1/2]` of length 3
summing to 1. -/
theorem C6_kernel_normalization_witness :
    1 ≤ 1 ∧
    ((averaging_kernel 1 0).length = 2 * 1 + 2 * 0 + 1 ∧
      averaging_kernel 1 0 =
        List.replicate 1 (Val.fin (1 / (2 * (1 : ℚ)))) ++
          List.replicate (2 * 0 + 1) (Val.fin 0) ++
          List.replicate 1 (Val.fin (1 / (2 * (1 : ℚ)))) ∧
      valSum (averaging_kernel 1 0) = Val.fin 1) :=
  ⟨le_refl 1, C6_kernel_normalization 1 0 (le_refl 1)⟩

/-- C5: with `1 ≤ n` and `2*(n+s)+1 ≤ F`, the transform succeeds with an
output of length `F` whose first and last `n+s` bins are NaN, while every
other bin whose (rational) neighbor mean is nonzero holds a finite value. -/
theorem C5_edge_undefined (psd : List ℚ) (n s : ℕ) (hn : 1 ≤ n)
    (hF : 2 * (n + s) + 1 ≤ psd.length) :
    ∃ out, snr_spectrum psd n s = some out ∧ out.length = psd.length ∧
      (∀ i, i < n + s → out[i]? = some Val.nan) ∧
      (∀ i, psd.length ≤ i + (n + s) → i < psd.length → out[i]? = some Val.nan) ∧
      (∀ i, n + s ≤ i → i + (n + s) < psd.length →
        (mean_noiseQ psd n s).getD (i - (n + s)) 0 ≠ 0 →
        ∃ q : ℚ, out[i]? = some (Val.fin q)) := by
  obtain ⟨out, h1, h2, h3⟩ := snr_spectrum_some psd n s hn hF
  refine ⟨out, h1, h2, ?_, ?_, ?_⟩
  · intro i hi
    rw [h3 i (by omega), if_pos (Or.inl hi)]
  · intro i hup hi
    rw [h3 i hi, if_pos (Or.inr hup)]
  · intro i hlo hhi hmean
    refine ⟨psd.getD i 0 / (mean_noiseQ psd n s).getD (i - (n + s)) 0, ?_⟩
    rw [h3 i (by omega), if_neg (by omega)]
    simp only [Val.div]
    rw [if_neg hmean]

/-- C5 witness at `psd = [1,1,1,1,1]`, `n = 1`, `s = 1`. -/
theorem C5_edge_undefined_witness :
    1 ≤ 1 ∧ 2 * (1 + 1) + 1 ≤ List.length [(1 : ℚ), 1, 1, 1, 1] ∧
    (∃ out, snr_spectrum [1, 1, 1, 1, 1] 1 1 = some out ∧
      out.length = List.length [(1 : ℚ), 1, 1, 1, 1] ∧
      (∀ i, i < 1 + 1 → out[i]? = some Val.nan) ∧
      (∀ i, List.length [(1 : ℚ), 1, 1, 1, 1] ≤ i + (1 + 1) →
        i < List.length [(1 : ℚ), 1, 1, 1, 1] → out[i]? = some Val.nan) ∧
      (∀ i, 1 + 1 ≤ i → i + (1 + 1) < List.length [(1 : ℚ), 1, 1, 1, 1] →
        (mean_noiseQ [1, 1, 1, 1, 1] 1 1).getD (i - (1 + 1)) 0 ≠ 0 →
        ∃ q : ℚ, out[i]? = some (Val.fin q))) :=
  ⟨le_refl 1, by norm_num,
    C5_edge_undefined [1, 1, 1, 1, 1] 1 1 (le_refl 1) (by norm_num)⟩

/-- C7: on a uniform spectrum of value `v > 0` (with `1 ≤ n` and the kernel
fitting), every defined (non-NaN) output bin equals exactly `1`. -/
theorem C7_uniform_fixed_point (F n s : ℕ) (v : ℚ) (hv : 0 < v) (hn : 1 ≤ n)
    (hF : 2 * (n + s) + 1 ≤ F) :
    ∃ out, snr_spectrum (List.replicate F v) n s = some out ∧
      ∀ (i : ℕ) (w : Val), out[i]? = some w → w ≠ Val.nan → w = Val.fin 1 := by
  obtain ⟨out, h1, h2, h3⟩ :=
    snr_spectrum_some (List.replicate F v) n s hn (by simpa using hF)
  refine ⟨out, h1, ?_⟩
  intro i w hw hnan
  have hi : i < F := by
    have hlt : i < out.length := (List.getElem?_eq_some.mp hw).1
    rw [h2, List.length_replicate] at hlt
    exact hlt
  have hform := h3 i (by simpa using hi)
  rw [hw] at hform
  by_cases hedge : i < n + s ∨ (List.replicate F v).length ≤ i + (n + s)
  · rw [if_pos hedge] at hform
    exact absurd (Option.some.inj hform) hnan
  · rw [if_neg hedge] at hform
    push_neg at hedge
    have hup : i + (n + s) < F := by
      have := hedge.2
      rw [List.length_replicate] at this
      omega
    have hgetv : (List.replicate F v).getD i 0 = v := by
      rw [List.getD_eq_getElem?_getD, List.getElem?_replicate, if_pos hi]
      rfl
    have hmean : (mean_noiseQ (List.replicate F v) n s).getD (i - (n + s)) 0 = v :=
      mean_noiseQ_replicate F n s v hn (i - (n + s)) (by omega)
    rw [hgetv, hmean] at hform
    rw [Option.some.inj hform]
    simp [Val.div, ne_of_gt hv, div_self (ne_of_gt hv)]

/-- C7 witness at `F = 5`, `n = 1`, `s = 1`, `v = 3`. -/
theorem C7_uniform_fixed_point_witness :
    (0 : ℚ) < 3 ∧ 1 ≤ 1 ∧ 2 * (1 + 1) + 1 ≤ 5 ∧
    (∃ out, snr_spectrum (List.replicate 5 (3 : ℚ)) 1 1 = some out ∧
      ∀ (i : ℕ) (w : Val), out[i]? = some w → w ≠ Val.nan → w = Val.fin 1) :=
  ⟨by norm_num, le_refl 1, by norm_num,
    C7_uniform_fixed_point 5 1 1 3 (by norm_num) (le_refl 1) (by norm_num)⟩

/-- C10: at a fully supported bin whose neighbor mean is exactly zero, the
transform still returns normally; that bin is `+inf` when its own power is
positive and NaN when its own power is zero, and every other bin keeps the
generic value (NaN on the edges, power over neighbor mean inside). -/
theorem C10_zero_neighbor_mean (psd : List ℚ) (n s i : ℕ) (hn : 1 ≤ n)
    (hF : 2 * (n + s) + 1 ≤ psd.length) (hlo : n + s ≤ i)
    (hhi : i + (n + s) < psd.length)
    (hzero : (mean_noiseQ psd n s).getD (i - (n + s)) 0 = 0) :
    ∃ out, snr_spectrum psd n s = some out ∧
      (0 < psd.getD i 0 → out[i]? = some Val.pinf) ∧
      (psd.getD i 0 = 0 → out[i]? = some Val.nan) ∧
      (∀ j, j < psd.length → j ≠ i →
        out[j]? = some (if j < n + s ∨ psd.length ≤ j + (n + s) then Val.nan
          else Val.div (Val.fin (psd.getD j 0))
            (Val.fin ((mean_noiseQ psd n s).getD (j - (n + s)) 0)))) := by
  obtain ⟨out, h1, h2, h3⟩ := snr_spectrum_some psd n s hn hF
  refine ⟨out, h1, ?_, ?_, fun j hj _ => h3 j hj⟩
  · intro hp
    rw [h3 i (by omega), if_neg (by omega), hzero]
    simp only [Val.div]
    rw [if_pos trivial, if_pos hp]
  · intro hp
    rw [h3 i (by omega), if_neg (by omega), hzero, hp]
    simp only [Val.div]
    rw [if_pos trivial, if_neg (lt_irrefl (0 : ℚ)), if_neg (lt_irrefl (0 : ℚ))]

/-- C10 witness at `psd = [1,0,3,0,2]`, `n = 1`, `s = 0`, `i = 2`: the
neighbor mean of bin 2 is `(0+0)/2 = 0` and its own power `3 > 0`. -/
theorem C10_zero_neighbor_mean_witness :
    1 ≤ 1 ∧ 2 * (1 + 0) + 1 ≤ List.length [(1 : ℚ), 0, 3, 0, 2] ∧
    1 + 0 ≤ 2 ∧ 2 + (1 + 0) < List.length [(1 : ℚ), 0, 3, 0, 2] ∧
    (mean_noiseQ [1, 0, 3, 0, 2] 1 0).getD (2 - (1 + 0)) 0 = 0 ∧
    (∃ out, snr_spectrum [1, 0, 3, 0, 2] 1 0 = some out ∧
      (0 < ([(1 : ℚ), 0, 3, 0, 2]).getD 2 0 → out[2]? = some Val.pinf) ∧
      (([(1 : ℚ), 0, 3, 0, 2]).getD 2 0 = 0 → out[2]? = some Val.nan) ∧
      (∀ j, j < List.length [(1 : ℚ), 0, 3, 0, 2] → j ≠ 2 →
        out[j]? = some (if j < 1 + 0 ∨ List.length [(1 : ℚ), 0, 3, 0, 2] ≤ j + (1 + 0)
          then Val.nan
          else Val.div (Val.fin (([(1 : ℚ), 0, 3, 0, 2]).getD j 0))
            (Val.fin ((mean_noiseQ [1, 0, 3, 0, 2] 1 0).getD (j - (1 + 0)) 0))))) := by
  have hzero : (mean_noiseQ [1, 0, 3, 0, 2] 1 0).getD (2 - (1 + 0)) 0 = 0 := by
    norm_num [mean_noiseQ, slideDotsQ, dotQ, kernelQ, averaging_kernel_raw,
      List.replicate]
  exact ⟨le_refl 1, by norm_num, by norm_num, by norm_num, hzero,
    C10_zero_neighbor_mean [1, 0, 3, 0, 2] 1 0 2 (le_refl 1) (by norm_num)
      (by norm_num) (by norm_num) hzero⟩

/-- C8: multiplying the spectrum by a positive constant `c` leaves the SNR
spectrum bit-for-bit unchanged (including edge NaNs, zero-mean infinities,
error cases, and degenerate shapes). -/
theorem C8_scale_invariance (psd : List ℚ) (n s : ℕ) (c : ℚ) (hn : 1 ≤ n)
    (hc : 0 < c) :
    snr_spectrum (psd.map (fun x => c * x)) n s = snr_spectrum psd n s := by
  by_cases hE : psd = []
  · subst hE
    rfl
  · unfold snr_spectrum
    have h1 : (psd.map (fun x => c * x)).isEmpty = false := by
      simp [List.isEmpty_iff, hE]
    have h2 : psd.isEmpty = false := by simp [List.isEmpty_iff, hE]
    rw [h1, h2]
    simp only [Bool.false_eq_true, if_false]
    rw [mean_noise_scale c psd n s hn, pad_nan_scale, broadcast_div_scale hc]

/-- C8 witness at `psd = [1,2,3]`, `n = 1`, `s = 0`, `c = 2`. -/
theorem C8_scale_invariance_witness :
    1 ≤ 1 ∧ (0 : ℚ) < 2 ∧
    snr_spectrum (([1, 2, 3] : List ℚ).map (fun x => 2 * x)) 1 0 =
      snr_spectrum [1, 2, 3] 1 0 :=
  ⟨le_refl 1, by norm_num,
    C8_scale_invariance [1, 2, 3] 1 0 2 (le_refl 1) (by norm_num)⟩

/-- C9: whenever the batched transform succeeds, its slice at any batch
index equals the transform of that slice run in isolation (and the batch
length is preserved). -/
theorem C9_batch_independence (psd : List (List ℚ)) (n s : ℕ)
    (out : List (List Val)) (h : snr_spectrum_2d psd n s = some out) :
    out.length = psd.length ∧
    ∀ i, i < psd.length → snr_spectrum (psd.getD i []) n s = out[i]? := by
  have h0 : psd ≠ [] := by
    intro hh
    rw [hh] at h
    simp [snr_spectrum_2d] at h
  have h1 : ∀ r ∈ psd, r ≠ [] := by
    intro r hr hrnil
    have hany : psd.any List.isEmpty = true :=
      List.any_eq_true.mpr ⟨r, hr, by simp [hrnil]⟩
    unfold snr_spectrum_2d at h
    rw [if_neg (by simpa [List.isEmpty_iff] using h0), if_pos (by rw [hany])] at h
    exact Option.noConfusion h
  rw [snr_spectrum_2d_eq_mapM psd n s h0 h1] at h
  exact ⟨mapM_some_length _ psd out h,
    fun i hi => mapM_some_getElem? _ [] psd out h i hi⟩

/-- C9 witness on the 2-batch input `[[1,1,1],[2,4,2]]` with `n = 1`,
`s = 0`, checking the slice at batch index 1. -/
theorem C9_batch_independence_witness :
    snr_spectrum_2d [[1, 1, 1], [2, 4, 2]] 1 0 =
      some [[Val.nan, Val.fin 1, Val.nan], [Val.nan, Val.fin 2, Val.nan]] ∧
    snr_spectrum (([[1, 1, 1], [2, 4, 2]] : List (List ℚ)).getD 1 []) 1 0 =
      ([[Val.nan, Val.fin 1, Val.nan],
        [Val.nan, Val.fin 2, Val.nan]] : List (List Val))[1]? := by
  have hEval : snr_spectrum_2d [[1, 1, 1], [2, 4, 2]] 1 0 =
      some [[Val.nan, Val.fin 1, Val.nan], [Val.nan, Val.fin 2, Val.nan]] := by
    norm_num [snr_spectrum_2d, broadcast_div, mean_noise, np_convolve_valid,
      averaging_kernel, averaging_kernel_raw, slideDots, dotVal, Val.add,
      Val.mul, Val.div, pad_nan, edge_width, List.replicate, List.mapM.loop,
      Option.some_bind]
  exact ⟨hEval,
    (C9_batch_independence [[1, 1, 1], [2, 4, 2]] 1 0 _ hEval).2 1 (by norm_num)⟩

/-- C4 counterexample: for `psd = [1]` (frequency length 1), `n = 1`,
`s = 0`, the kernel (length 3) is longer than the frequency axis; the
padded mean-noise has length 5 and numpy broadcasting of the length-1
`psd` against it returns an output of length 5 ≠ 1, so the shape is not
preserved even though the input is valid by the claim's own definition. -/
theorem C4_counterexample :
    List.length [(1 : ℚ)] = 1 ∧
    snr_spectrum [1] 1 0 =
      some [Val.nan, Val.fin 2, Val.pinf, Val.fin 2, Val.nan] ∧
    Option.map List.length (snr_spectrum [1] 1 0) = some 5 ∧ (5 : ℕ) ≠ 1 := by
  have h : snr_spectrum [1] 1 0 =
      some [Val.nan, Val.fin 2, Val.pinf, Val.fin 2, Val.nan] := by
    norm_num [snr_spectrum, broadcast_div, mean_noise, np_convolve_valid,
      averaging_kernel, averaging_kernel_raw, slideDots, dotVal, Val.add,
      Val.mul, Val.div, pad_nan, edge_width, List.replicate]
  refine ⟨rfl, h, ?_, by norm_num⟩
  rw [h]
  rfl

/-- C4 amended: shape preservation holds exactly when the kernel fits:
for `1 ≤ n` and `2*(n+s)+1 ≤ F` the output exists and has the same
frequency length as `psd` (1-D case), and on a rectangular batch the
batch length is preserved with every output row of length `F` (2-D
case).  When `2*(n+s)+1 > F` the transform instead errors (`F ≥ 2`) or
returns a longer array (`F = 1`). -/
theorem C4_amended_shape_preservation :
    (∀ (psd : List ℚ) (n s : ℕ), 1 ≤ n → 2 * (n + s) + 1 ≤ psd.length →
        ∃ out, snr_spectrum psd n s = some out ∧ out.length = psd.length) ∧
    (∀ (psd : List (List ℚ)) (F n s : ℕ), 1 ≤ n → 2 * (n + s) + 1 ≤ F →
        psd ≠ [] → (∀ r ∈ psd, r.length = F) →
        ∃ out, snr_spectrum_2d psd n s = some out ∧ out.length = psd.length ∧
          ∀ r ∈ out, r.length = F) := by
  constructor
  · intro psd n s hn hF
    obtain ⟨out, h1, h2, _⟩ := snr_spectrum_some psd n s hn hF
    exact ⟨out, h1, h2⟩
  · intro psd F n s hn hF h0 hrect
    have h1 : ∀ r ∈ psd, r ≠ [] := by
      intro r hr hrnil
      have := hrect r hr
      rw [hrnil] at this
      simp at this
      omega
    have hmm := snr_spectrum_2d_eq_mapM psd n s h0 h1
    have hex : ∀ r ∈ psd, ∃ b, snr_spectrum r n s = some b := by
      intro r hr
      obtain ⟨o, ho, _, _⟩ :=
        snr_spectrum_some r n s hn (by rw [hrect r hr]; exact hF)
      exact ⟨o, ho⟩
    obtain ⟨out, hout⟩ := mapM_some_of_forall _ psd hex
    refine ⟨out, by rw [hmm]; exact hout, mapM_some_length _ psd out hout, ?_⟩
    intro r hr
    obtain ⟨i, hi⟩ := List.mem_iff_getElem?.mp hr
    have hilt : i < out.length := (List.getElem?_eq_some.mp hi).1
    have hlen : out.length = psd.length := mapM_some_length _ psd out hout
    have hrowi := mapM_some_getElem? _ ([] : List ℚ) psd out hout i (by omega)
    rw [hi] at hrowi
    have hip : i < psd.length := by omega
    have hmem : psd.getD i [] ∈ psd := by
      rw [List.getD_eq_getElem?_getD, List.getElem?_eq_getElem hip]
      exact List.getElem_mem hip
    obtain ⟨o, ho, holen, _⟩ := snr_spectrum_some (psd.getD i []) n s hn
      (by rw [hrect _ hmem]; exact hF)
    rw [ho] at hrowi
    rw [← Option.some.inj hrowi, holen]
    exact hrect _ hmem

/-- C4 amended witness: 1-D at `[1,1,1]`, `n = 1`, `s = 0`, and 2-D at
`[[1,1,1],[2,4,2]]` with `F = 3`. -/
theorem C4_amended_shape_preservation_witness :
    (∃ out, snr_spectrum [1, 1, 1] 1 0 = some out ∧
      out.length = List.length [(1 : ℚ), 1, 1]) ∧
    (∃ out, snr_spectrum_2d [[1, 1, 1], [2, 4, 2]] 1 0 = some out ∧
      out.length = List.length ([[1, 1, 1], [2, 4, 2]] : List (List ℚ)) ∧
      ∀ r ∈ out, r.length = 3) :=
  ⟨C4_amended_shape_preservation.1 [1, 1, 1] 1 0 (le_refl 1) (by norm_num),
   C4_amended_shape_preservation.2 [[1, 1, 1], [2, 4, 2]] 3 1 0 (le_refl 1)
     (by norm_num) (by simp)
     (by intro r hr; simp at hr; rcases hr with h | h <;> subst h <;> rfl)⟩

/-- C3 counterexample: for `psd = [1,1,1]` (`F = 3`), `n = 2`, `s = 0`
(so `2*(n+s)+1 = 5 > 3`), the transform raises (the padded mean-noise has
length 7 ≠ 3 and cannot be broadcast against `psd`): no all-undefined
output of the input's shape is returned. -/
theorem C3_counterexample :
    List.length [(1 : ℚ), 1, 1] < 2 * (2 + 0) + 1 ∧
    snr_spectrum [1, 1, 1] 2 0 = none := by
  refine ⟨by norm_num, ?_⟩
  norm_num [snr_spectrum, broadcast_div, mean_noise, np_convolve_valid,
    averaging_kernel, averaging_kernel_raw, slideDots, dotVal, Val.add,
    Val.mul, Val.div, pad_nan, edge_width, List.replicate]

/-- C3 amended: when `2*(n+s)+1 > F` (with `1 ≤ n`) the transform does not
return an all-undefined array of the input's shape: for every `F ≥ 2` the
final division fails on mismatched lengths — `psd` has length `F` while
the padded mean-noise has length `4*(n+s)+2-F ≠ F` — so an error is
raised and no output is produced.  (Only the degenerate `F = 1` case
yields an output, and it is longer than the input.) -/
theorem C3_amended_error (psd : List ℚ) (n s : ℕ) (hn : 1 ≤ n)
    (hF2 : 2 ≤ psd.length) (hlt : psd.length < 2 * (n + s) + 1) :
    snr_spectrum psd n s = none := by
  unfold snr_spectrum
  have hne : psd.isEmpty = false := by
    rw [List.isEmpty_eq_false]
    intro hh
    rw [hh] at hF2
    simp at hF2
  simp only [hne, Bool.false_eq_true, if_false]
  have hmlen : (mean_noise psd n s).length =
      (2 * n + 2 * s + 1) - psd.length + 1 := by
    unfold mean_noise np_convolve_valid
    rw [if_neg (by rw [length_averaging_kernel, List.length_map]; omega)]
    rw [slideDots_length _ (by rw [List.length_reverse, List.length_map]; omega) _
      (by rw [List.length_reverse, List.length_map, length_averaging_kernel]; omega)]
    rw [List.length_reverse, List.length_map, length_averaging_kernel]
  apply broadcast_div_none
  · rw [List.length_map, length_pad_nan, hmlen]
    simp only [edge_width]
    omega
  · rw [List.length_map]
    omega
  · rw [length_pad_nan, hmlen]
    simp only [edge_width]
    omega

/-- C3 amended witness: `psd = [1,1]`, `n = 1`, `s = 0` (`F = 2 < 3`). -/
theorem C3_amended_error_witness :
    1 ≤ 1 ∧ 2 ≤ List.length [(1 : ℚ), 1] ∧
    List.length [(1 : ℚ), 1] < 2 * (1 + 0) + 1 ∧
    snr_spectrum [1, 1] 1 0 = none :=
  ⟨le_refl 1, by norm_num, by norm_num,
    C3_amended_error [1, 1] 1 0 (le_refl 1) (by norm_num) (by norm_num)⟩

/-- C2 counterexample: with `noise_n_neighborfreqs = 0` (and `s = 1`,
`psd = [1,1,1]`) no error is signalled: the kernel normalization divides
by the zero kernel sum, every kernel entry becomes NaN, and the transform
returns an all-NaN array — an output IS produced, contradicting the
claimed invalid-parameter error. -/
theorem C2_counterexample :
    snr_spectrum [1, 1, 1] 0 1 = some [Val.nan, Val.nan, Val.nan] ∧
    snr_spectrum [1, 1, 1] 0 1 ≠ none := by
  have h : snr_spectrum [1, 1, 1] 0 1 = some [Val.nan, Val.nan, Val.nan] := by
    norm_num [snr_spectrum, broadcast_div, mean_noise, np_convolve_valid,
      averaging_kernel, averaging_kernel_raw, slideDots, dotVal, Val.add,
      Val.mul, Val.div, pad_nan, edge_width, List.replicate]
  exact ⟨h, by rw [h]; simp⟩

/-- C2 amended: calling the transform with `noise_n_neighborfreqs = 0`
does not raise; the zero kernel sum turns every kernel entry into NaN
(`0.0/0.0`), and whenever the kernel fits (`2*s+1 ≤ F`) the transform
completes and returns an array of the input's shape with every bin NaN. -/
theorem C2_amended_all_nan (psd : List ℚ) (s : ℕ)
    (h : 2 * s + 1 ≤ psd.length) :
    snr_spectrum psd 0 s = some (List.replicate psd.length Val.nan) := by
  unfold snr_spectrum
  have hne : psd.isEmpty = false := by
    rw [List.isEmpty_eq_false]
    intro hh
    rw [hh] at h
    simp at h
  simp only [hne, Bool.false_eq_true, if_false]
  have hmean : mean_noise psd 0 s =
      List.replicate (psd.length - (2 * s + 1) + 1) Val.nan := by
    unfold mean_noise np_convolve_valid
    rw [averaging_kernel_zero s,
      if_pos (by simp only [List.length_replicate, List.length_map]; omega)]
    rw [List.reverse_replicate, slideDots_replicate_nan (2 * s + 1) (by omega) _
      (by simp only [List.length_replicate, List.length_map]; omega)]
    rw [List.length_map]
  rw [hmean]
  have hpad : pad_nan (edge_width 0 s)
      (List.replicate (psd.length - (2 * s + 1) + 1) Val.nan) =
      List.replicate psd.length Val.nan := by
    simp only [pad_nan, edge_width, Nat.zero_add]
    rw [← List.replicate_add, ← List.replicate_add]
    congr 1
    omega
  rw [hpad]
  unfold broadcast_div
  rw [if_pos (by simp)]
  rw [zipWith_div_fin_replicate_nan]

/-- C2 amended witness: `psd = [1,2]`, `s = 0`. -/
theorem C2_amended_all_nan_witness :
    2 * 0 + 1 ≤ List.length [(1 : ℚ), 2] ∧
    snr_spectrum [1, 2] 0 0 =
      some (List.replicate (List.length [(1 : ℚ), 2]) Val.nan) :=
  ⟨by norm_num, C2_amended_all_nan [1, 2] 0 (by norm_num)⟩

/-- C1 counterexample: for `psd = [1,1,1,1,1,10,1,1,1,1,1]`, `n = 2`,
`s = 1`, the output at bin 3 is `4/13`, not `1.0` as claimed: bin 3's
averaged neighbors are bins {0,1,5,6}, which include the peak bin 5 of
power 10, so the neighbor mean is `13/4` (and symmetrically for bin 7). -/
theorem C1_counterexample :
    (snr_spectrum [1, 1, 1, 1, 1, 10, 1, 1, 1, 1, 1] 2 1).bind
        (fun l => l[3]?) = some (Val.fin (4 / 13)) ∧
    Val.fin (4 / 13) ≠ Val.fin 1 := by
  constructor
  · norm_num [snr_spectrum, broadcast_div, mean_noise, np_convolve_valid,
      averaging_kernel, averaging_kernel_raw, slideDots, dotVal, Val.add,
      Val.mul, Val.div, pad_nan, edge_width, List.replicate, Option.some_bind]
  · simp only [ne_eq, Val.fin.injEq]
    norm_num

/-- C1 amended: in the concrete scenario the kernel has length 7 and
`edge_width = 3`; bins 0–2 and 8–10 are NaN; bin 5 equals `10.0`; bins 4
and 6 equal `1.0`; but bins 3 and 7 equal `4/13` (≈ 0.308), since their
neighbor windows {0,1,5,6} and {4,5,9,10} contain the peak bin 5, making
the neighbor mean `13/4` instead of 1. -/
theorem C1_amended_concrete :
    (averaging_kernel 2 1).length = 7 ∧ edge_width 2 1 = 3 ∧
    snr_spectrum [1, 1, 1, 1, 1, 10, 1, 1, 1, 1, 1] 2 1 =
      some [Val.nan, Val.nan, Val.nan, Val.fin (4 / 13), Val.fin 1, Val.fin 10,
        Val.fin 1, Val.fin (4 / 13), Val.nan, Val.nan, Val.nan] := by
  refine ⟨by rw [length_averaging_kernel], rfl, ?_⟩
  norm_num [snr_spectrum, broadcast_div, mean_noise, np_convolve_valid,
    averaging_kernel, averaging_kernel_raw, slideDots, dotVal, Val.add,
    Val.mul, Val.div, pad_nan, edge_width, List.replicate]
